import Mathlib

/-!
Shallow embedding of the CASSCF one-step optimizer (`mcscf/mc1step.py`) and
of the k-point Hartree-Fock energy evaluation (`pbc/scf/khf.py`), together
with theorems checking the specification's claims against it.

Real-valued floating point data is idealized as `ℚ` where the code only
compares and combines values by rational arithmetic, and as `ℝ` where square
roots or Euclidean norms are involved.
-/

/-! ## `pbc/scf/khf.py`: `energy_elec` (claim C5)

The source computes complex scalars `e1` and `e_coul` and then runs

  if abs(e_coul.imag > 1.e-10):
      raise RuntimeError(...)
  e1 = e1.real
  e_coul = e_coul.real
  return e1+e_coul, e_coul

Note the test applies `abs` to the *boolean* `e_coul.imag > 1.e-10`, so the
guard is truthy exactly when `e_coul.imag > 1e-10`.  Complex scalars are
embedded as pairs `(re, im) : ℚ × ℚ`. -/

/-- Shallow embedding of `energy_elec` (khf.py lines 250-266) applied to the
already-computed complex scalars `e1` and `e_coul`. -/
def energy_elec (e1 e_coul : ℚ × ℚ) : Except String (ℚ × ℚ) :=
  if e_coul.2 > 1/10^10 then
    Except.error "Coulomb energy has imaginary part, something is wrong!"
  else
    Except.ok (e1.1 + e_coul.1, e_coul.1)

/-- Predicate from the claim: the error should fire whenever the magnitude of
the imaginary part of the Coulomb energy exceeds `1e-10`. -/
def imagBeyondTol (e_coul_im : ℚ) : Prop := |e_coul_im| > 1/10^10

/-! ## `mcscf/mc1step.py`: `CASSCF.casci` post-processing (claim C6)

After calling the external `casci.kernel`, the method checks (lines 735-738)

  if not isinstance(e_ci, (float, numpy.number)):
      raise RuntimeError('Multiple roots are detected ...')

The value returned by the plugged-in CI solver is either a scalar or an
array of several roots; we embed that alternative as a sum type. -/

/-- The active-space energy coming back from the CI solver: a scalar
(`float` or `numpy.number`) or an array of several roots. -/
inductive CIEnergy where
  | scalar (e : ℚ)
  | roots (es : List ℚ)
deriving DecidableEq, Repr

/-- The message of the `RuntimeError` raised for a non-scalar CI energy
(mc1step.py lines 736-738). -/
def multirootErrorMsg : String :=
  "Multiple roots are detected in fcisolver.  CASSCF does not know which state to optimize.\nSee also  mcscf.state_average  or  mcscf.state_specific  for excited states."

/-- Shallow embedding of the tail of `CASSCF.casci` (mc1step.py lines
734-772): given the triple produced by the external `casci.kernel`, either
raise on a non-scalar CI energy or pass the triple through. -/
def casci_postprocess (e_tot : ℚ) (e_ci : CIEnergy) (fcivec : List ℚ) :
    Except String (ℚ × ℚ × List ℚ) :=
  match e_ci with
  | CIEnergy.scalar e => Except.ok (e_tot, e, fcivec)
  | CIEnergy.roots _ => Except.error multirootErrorMsg

/-! ## `mcscf/mc1step.py`: the macro driver `kernel` (claims C1, C3, C4)

### Early exit (claim C3)

Lines 360-365:

  if casscf.ncas == nmo and not casscf.internal_rotation:
      if casscf.canonicalization:
          ...
          return True, e_tot, e_ci, fcivec, mo, mo_energy

When `canonicalization` is false, the outer test falls through and the
driver continues into the macro-iteration loop. -/

/-- Shallow embedding of the early-exit decision of `kernel` (mc1step.py
lines 360-365): `some true` means the function returns right after the
initial CASCI solve, with `True` as its `converged` field; `none` means
execution continues towards the macro-iteration loop. -/
def kernel_early_exit (ncas nmo : ℕ) (internal_rotation canonicalization : Bool) :
    Option Bool :=
  if ncas = nmo ∧ internal_rotation = false then
    if canonicalization then some true else none
  else none

/-! ### Global convergence test (claim C1)

Lines 367-370 resolve the tolerances:

  if conv_tol_grad is None:
      conv_tol_grad = numpy.sqrt(tol)
  conv_tol_ddm = conv_tol_grad * 3

and lines 453-456, at the end of each macro iteration:

  de, elast = e_tot - elast, e_tot
  if (abs(de) < tol
      and (norm_gorb0 < conv_tol_grad and norm_ddm < conv_tol_ddm)):
      conv = True
-/

/-- Resolution of the `conv_tol_grad` argument of `kernel` (mc1step.py lines
367-369): `sqrt tol` when the caller leaves it unset. -/
noncomputable def resolve_conv_tol_grad (tol : ℝ) (conv_tol_grad : Option ℝ) : ℝ :=
  match conv_tol_grad with
  | some c => c
  | none => Real.sqrt tol

/-- Shallow embedding of the end-of-macro-iteration convergence decision of
`kernel` (mc1step.py lines 367-370 and 453-456), as the source computes it:
`de` is `e_tot - elast`, `conv_tol_ddm` is `conv_tol_grad * 3`. -/
def kernel_conv_decision (tol conv_tol_grad_eff : ℝ)
    (elast e_tot norm_gorb0 norm_ddm : ℝ) : Prop :=
  |e_tot - elast| < tol ∧
    (norm_gorb0 < conv_tol_grad_eff ∧ norm_ddm < conv_tol_grad_eff * 3)

/-- The convergence criterion in the words of the claim: absolute energy
change below `tol`, gradient norm at the start of the macro iteration below
`conv_tol_grad`, and density-matrix change below `3 * conv_tol_grad`, with
`conv_tol_grad` defaulting to `sqrt tol` when unset. -/
noncomputable def claim_macro_converged (tol : ℝ) (conv_tol_grad : Option ℝ)
    (elast e_tot norm_gorb0 norm_ddm : ℝ) : Prop :=
  let c := match conv_tol_grad with
           | some c => c
           | none => Real.sqrt tol
  |e_tot - elast| < tol ∧ norm_gorb0 < c ∧ norm_ddm < 3 * c

/-! ### Terminal section of `kernel` (claim C4)

Lines 473-485:

  if casscf.canonicalization:
      mo, fcivec, mo_energy = casscf.canonicalize(...)
      if casscf.natorb:
          occ, ucas = casscf._eig(-casdm1, ncore, nocc)[0]
          casdm1 = -occ
  ...
  return conv, e_tot, e_ci, fcivec, mo, mo_energy

The names `ncore` and `nocc` are never bound anywhere in the body of
`kernel`, and `mo_energy` is bound only by the `canonicalize` call (the
other binding, line 363, is on the early-return path which does not reach
this section).  We embed the section as name lookups against the list of
local names the body of `kernel` has bound by the time it reaches line 473. -/

/-- The local names bound in the body of `kernel` (mc1step.py lines 342-464)
before the terminal section at line 473 is reached on the normal
(macro-loop) path: parameters, then the assignments of lines 346-464.
Neither `ncore` nor `nocc` nor `mo_energy` is among them. -/
def kernelBoundLocals : List String :=
  ["casscf", "mo_coeff", "tol", "conv_tol_grad", "ci0", "callback", "verbose",
   "dump_chk", "log", "cput0", "mo", "nmo", "eris", "e_tot", "e_ci", "fcivec",
   "conv_tol_ddm", "conv", "totmicro", "totinner", "norm_gorb", "norm_gci",
   "de", "elast", "r0", "t1m", "casdm1", "casdm2", "norm_ddm", "casdm1_prev",
   "casdm1_last", "t3m", "t2m", "imacro", "max_cycle_micro", "max_stepsize",
   "imicro", "rota", "u", "g_orb", "njk", "norm_gorb0", "norm_t",
   "norm_ddm_micro", "gci"]

/-- Python name lookup: referencing an unbound local raises a `NameError`
(an `UnboundLocalError` when the name is assigned elsewhere in the
function). -/
def lookupName (env : List String) (x : String) : Except String Unit :=
  if x ∈ env then Except.ok () else Except.error ("NameError: " ++ x)

/-- Shallow embedding of the terminal section of `kernel` (mc1step.py lines
473-485) as executed on the normal (macro-loop) path: the `canonicalization`
branch binds `mo_energy` (and, with `natorb`, reads `casdm1`, `ncore` and
`nocc`), and the final `return` reads `mo_energy`.  Returns `ok` exactly
when every name read along the way is bound. -/
def kernel_finalize (canonicalization natorb : Bool) (env : List String) :
    Except String Unit := do
  let env1 ←
    if canonicalization then do
      -- mo, fcivec, mo_energy = casscf.canonicalize(mo, fcivec, eris, ...)
      let _ ← lookupName env "mo"
      let _ ← lookupName env "fcivec"
      let _ ← lookupName env "eris"
      let env := "mo_energy" :: env
      if natorb then do
        -- occ, ucas = casscf._eig(-casdm1, ncore, nocc)[0]
        let _ ← lookupName env "casdm1"
        let _ ← lookupName env "ncore"
        let _ ← lookupName env "nocc"
        pure ("ucas" :: "occ" :: env)
      else
        pure env
    else
      pure env
  -- return conv, e_tot, e_ci, fcivec, mo, mo_energy
  let _ ← lookupName env1 "conv"
  let _ ← lookupName env1 "e_tot"
  let _ ← lookupName env1 "e_ci"
  let _ ← lookupName env1 "fcivec"
  let _ ← lookupName env1 "mo"
  let _ ← lookupName env1 "mo_energy"
  pure ()

/-! ## `mcscf/mc1step.py`: `CASSCF.solve_approx_ci` (claim C7)

Lines 931-939:

  if 'norm_gorb' in envs:
      tol = max(self.conv_tol, envs['norm_gorb']**2*.1)
  else:
      tol = None
  if hasattr(self.fcisolver, 'approx_kernel'):
      fn = self.fcisolver.approx_kernel
      ci1 = fn(h1, h2, ncas, nelecas, ci0=ci0, tol=tol, max_memory=...)[1]
      return ci1, None
-/

/-- The CI convergence tolerance computed by `solve_approx_ci` (mc1step.py
lines 931-934): `max(conv_tol, norm_gorb**2 * .1)` when the environment
supplies an orbital-gradient norm, `None` otherwise. -/
def approx_ci_tol (conv_tol : ℚ) (norm_gorb : Option ℚ) : Option ℚ :=
  match norm_gorb with
  | some g => some (max conv_tol (g^2 * (1/10)))
  | none => none

/-- Capability flags of the duck-typed CI solver as probed by
`solve_approx_ci` (mc1step.py lines 935-946). -/
structure FCISolverCaps where
  has_approx_kernel : Bool
  has_contract_2e : Bool
  has_absorb_h1e : Bool
deriving DecidableEq, Repr

/-- The CI-space gradient returned by `solve_approx_ci` (mc1step.py lines
935-978): `none` on the `approx_kernel` path and on the reduced-budget
`kernel` path, and the computed gradient `gval` on the common
response path. -/
def solve_approx_ci_grad (caps : FCISolverCaps) (gval : List ℚ) : Option (List ℚ) :=
  if caps.has_approx_kernel then none
  else if !(caps.has_contract_2e && caps.has_absorb_h1e) then none
  else some gval

/-! ## Theorems for claims C1, C3, C4, C5, C6 and the C7 pieces -/

/-- Claim C1: the macro driver declares convergence at the end of a macro
iteration exactly when the absolute energy change is below `tol`, the
orbital-gradient norm at the start of the macro iteration is below
`conv_tol_grad`, and the density-matrix change norm is below
`3 * conv_tol_grad`, with `conv_tol_grad` defaulting to `sqrt tol` when the
caller leaves it unset. -/
theorem kernel_conv_decision_iff_claim (tol : ℝ) (conv_tol_grad : Option ℝ)
    (elast e_tot norm_gorb0 norm_ddm : ℝ) :
    kernel_conv_decision tol (resolve_conv_tol_grad tol conv_tol_grad)
        elast e_tot norm_gorb0 norm_ddm ↔
      claim_macro_converged tol conv_tol_grad elast e_tot norm_gorb0 norm_ddm := by
  unfold kernel_conv_decision claim_macro_converged resolve_conv_tol_grad
  cases conv_tol_grad <;> simp [mul_comm]

/-- Claim C3 counterexample: with `ncas = nmo = 2`, `internal_rotation`
disabled but `canonicalization` also disabled, `kernel` does not return
early; it falls through into the macro-iteration loop. -/
theorem kernel_early_exit_needs_canonicalization :
    kernel_early_exit 2 2 false false = none := by
  decide

/-- Claim C3 (amended): whenever `ncas = nmo`, `internal_rotation` is
disabled and `canonicalization` is enabled, `kernel` returns immediately
after the initial CASCI solve with `converged = True`. -/
theorem kernel_early_exit_of_canonicalization (ncas nmo : ℕ)
    (internal_rotation canonicalization : Bool)
    (hcas : ncas = nmo) (hir : internal_rotation = false)
    (hcan : canonicalization = true) :
    kernel_early_exit ncas nmo internal_rotation canonicalization = some true := by
  subst hcas hir hcan
  simp [kernel_early_exit]

/-- Claim C3 amended witness at a concrete configuration. -/
theorem kernel_early_exit_of_canonicalization_witness :
    kernel_early_exit 3 3 false true = some true :=
  kernel_early_exit_of_canonicalization 3 3 false true rfl rfl rfl

/-- Claim C4: the code, not the claim, is at fault.  On the normal terminal
path with `canonicalization = False` the final `return` reads the unbound
local `mo_energy`, and with `canonicalization = True` and `natorb = True`
the natural-orbital branch reads the never-bound names `ncore`/`nocc`; only
the `canonicalization = True`, `natorb = False` combination returns
normally. -/
theorem kernel_finalize_unbound_names :
    kernel_finalize false false kernelBoundLocals =
        Except.error "NameError: mo_energy" ∧
      kernel_finalize false true kernelBoundLocals =
        Except.error "NameError: mo_energy" ∧
      kernel_finalize true true kernelBoundLocals =
        Except.error "NameError: ncore" ∧
      kernel_finalize true false kernelBoundLocals = Except.ok () := by
  refine ⟨?_, ?_, ?_, ?_⟩ <;> rfl

/-- Claim C5: the code, not the claim, is at fault.  With a Coulomb energy
whose imaginary part is `-1` — far beyond the `1e-10` tolerance in
magnitude — `energy_elec` does not raise: it silently discards the
imaginary part and returns the real parts, because the source applies
`abs` to the boolean `e_coul.imag > 1.e-10` instead of to the imaginary
part itself. -/
theorem energy_elec_misses_negative_imag :
    imagBeyondTol (-1) ∧
      energy_elec ((3 : ℚ), 0) ((2 : ℚ), -1) = Except.ok (5, 2) := by
  constructor
  · unfold imagBeyondTol
    norm_num
  · unfold energy_elec
    norm_num

/-- Claim C5 complement: `energy_elec` raises exactly on a positive
imaginary part beyond the tolerance, and otherwise returns the real parts
`(e1 + e_coul, e_coul)`. -/
theorem energy_elec_raises_iff_pos_imag (e1 e_coul : ℚ × ℚ) :
    (∃ msg, energy_elec e1 e_coul = Except.error msg) ↔ e_coul.2 > 1/10^10 := by
  unfold energy_elec
  split_ifs with h
  · simpa using h
  · simpa using h

/-- Claim C6: `CASSCF.casci` raises the `RuntimeError` pointing at the
state-averaging / state-specific wrappers exactly when the CI solver hands
back a non-scalar active-space energy, and passes the triple
`(e_tot, e_ci, fcivec)` through unchanged when the energy is a scalar. -/
theorem casci_postprocess_multiroot_iff (e_tot : ℚ) (e_ci : CIEnergy) (fcivec : List ℚ) :
    ((∃ es, e_ci = CIEnergy.roots es) ↔
        casci_postprocess e_tot e_ci fcivec = Except.error multirootErrorMsg) ∧
      (∀ e, e_ci = CIEnergy.scalar e →
        casci_postprocess e_tot e_ci fcivec = Except.ok (e_tot, e, fcivec)) := by
  cases e_ci with
  | scalar e =>
      refine ⟨⟨?_, ?_⟩, ?_⟩
      · rintro ⟨es, h⟩
        cases h
      · intro h
        simp [casci_postprocess] at h
      · intro e' he
        cases he
        rfl
  | roots es =>
      refine ⟨⟨?_, ?_⟩, ?_⟩
      · intro _
        rfl
      · intro _
        exact ⟨es, rfl⟩
      · intro e' he
        cases he

/-- Claim C7 counterexample: with `conv_tol = 1e-7` and an orbital-gradient
norm of `1`, the CI tolerance handed to the back end is `0.1`, which is
strictly looser (larger) than the macro `conv_tol`; so the tolerance is not
"never looser than the macro conv_tol". -/
theorem approx_ci_tol_looser_than_conv_tol :
    approx_ci_tol (1/10^7) (some 1) = some (1/10) ∧ ¬((1 : ℚ)/10 ≤ 1/10^7) := by
  constructor
  · unfold approx_ci_tol
    norm_num
  · norm_num

/-- Claim C7 (amended): when the environment supplies an orbital-gradient
norm, the CI tolerance is `max conv_tol (0.1 * norm_gorb^2)` — it scales
with the squared gradient norm and is never tighter (smaller) than the
macro `conv_tol` — and on the `approx_kernel` path the returned CI-space
gradient is `none`. -/
theorem approx_ci_tol_amended (conv_tol g : ℚ) :
    approx_ci_tol conv_tol (some g) = some (max conv_tol (g^2 * (1/10))) ∧
      conv_tol ≤ max conv_tol (g^2 * (1/10)) ∧
      g^2 * (1/10) ≤ max conv_tol (g^2 * (1/10)) ∧
      (∀ (c a : Bool) (gval : List ℚ),
        solve_approx_ci_grad ⟨true, c, a⟩ gval = none) := by
  refine ⟨rfl, le_max_left _ _, le_max_right _ _, ?_⟩
  intro c a gval
  rfl

/-! ## `mcscf/mc1step.py`: the rotation-parameter packing map (claims C2, C10)

`CASSCF.uniq_var_indices` (lines 774-787) builds a boolean `nmo × nmo`
mask:

  mask[ncore:nocc,:ncore] = True
  mask[nocc:,:nocc] = True
  if self.internal_rotation:
      mask[ncore:nocc,ncore:nocc][numpy.tril_indices(ncas,-1)] = True
  if frozen is not None:
      (int)  mask[:frozen] = mask[:,:frozen] = False
      (list) mask[frozen] = mask[:,frozen] = False

`pack_uniq_var` (789-792) extracts `mat[idx]` — the masked entries in
row-major order — and `unpack_uniq_var` (795-800) writes a vector back into
a zero matrix at the masked positions and returns `mat - mat.T`. -/

/-- The `frozen` attribute: absent, an integer count freezing the first `k`
orbitals, or an explicit index list. -/
inductive Frozen where
  | none
  | count (k : ℕ)
  | idxList (l : List ℕ)
deriving DecidableEq, Repr

/-- Shallow embedding of `CASSCF.uniq_var_indices` (mc1step.py lines
774-787), as the entry-level test of the boolean mask it returns. -/
def uniq_var_indices (internal_rotation : Bool) (nmo ncore ncas : ℕ)
    (frozen : Frozen) (i j : Fin nmo) : Bool :=
  let nocc := ncore + ncas
  let base : Bool :=
    (decide (ncore ≤ i.val) && decide (i.val < nocc) && decide (j.val < ncore)) ||
    (decide (nocc ≤ i.val) && decide (j.val < nocc)) ||
    (internal_rotation && decide (ncore ≤ i.val) && decide (i.val < nocc) &&
      decide (ncore ≤ j.val) && decide (j.val < i.val))
  match frozen with
  | Frozen.none => base
  | Frozen.count k => base && !decide (i.val < k) && !decide (j.val < k)
  | Frozen.idxList l => base && !decide (i.val ∈ l) && !decide (j.val ∈ l)

/-- The masked index pairs in row-major order: the order in which numpy's
boolean-mask indexing `mat[idx]` reads, and `mat[idx] = v` writes, the
non-redundant entries. -/
def uniq_var_pairs (internal_rotation : Bool) (nmo ncore ncas : ℕ)
    (frozen : Frozen) : List (Fin nmo × Fin nmo) :=
  ((List.finRange nmo) ×ˢ (List.finRange nmo)).filter
    (fun p => uniq_var_indices internal_rotation nmo ncore ncas frozen p.1 p.2)

/-- Shallow embedding of `CASSCF.pack_uniq_var` (mc1step.py lines 789-792):
`mat[idx]` in row-major order. -/
def pack_uniq_var (internal_rotation : Bool) (nmo ncore ncas : ℕ)
    (frozen : Frozen) (mat : Fin nmo → Fin nmo → ℚ) : List ℚ :=
  (uniq_var_pairs internal_rotation nmo ncore ncas frozen).map (fun p => mat p.1 p.2)

/-- The matrix produced by `mat = numpy.zeros(..); mat[idx] = v`: position
`(i, j)` receives the vector entry whose rank equals the rank of `(i, j)`
in the row-major list of masked positions, every unmasked position stays
zero. -/
def assignAux {nmo : ℕ} :
    List (Fin nmo × Fin nmo) → List ℚ → Fin nmo → Fin nmo → ℚ
  | [], _, _, _ => 0
  | _ :: _, [], _, _ => 0
  | p :: ps, x :: xs, i, j => if i = p.1 ∧ j = p.2 then x else assignAux ps xs i j

/-- Shallow embedding of `CASSCF.unpack_uniq_var` (mc1step.py lines
795-800): scatter `v` into a zero matrix at the masked positions and return
`mat - mat.T`. -/
def unpack_uniq_var (internal_rotation : Bool) (nmo ncore ncas : ℕ)
    (frozen : Frozen) (v : List ℚ) (i j : Fin nmo) : ℚ :=
  assignAux (uniq_var_pairs internal_rotation nmo ncore ncas frozen) v i j -
    assignAux (uniq_var_pairs internal_rotation nmo ncore ncas frozen) v j i

/-- Every masked pair lies strictly below the diagonal: the mask only marks
(active, core), (virtual, occupied) and strictly-lower active-active
positions. -/
theorem uniq_var_indices_base {internal_rotation : Bool} {nmo ncore ncas : ℕ}
    {frozen : Frozen} {i j : Fin nmo}
    (h : uniq_var_indices internal_rotation nmo ncore ncas frozen i j = true) :
    (ncore ≤ i.val ∧ i.val < ncore + ncas ∧ j.val < ncore) ∨
      (ncore + ncas ≤ i.val ∧ j.val < ncore + ncas) ∨
      (internal_rotation = true ∧ ncore ≤ i.val ∧ i.val < ncore + ncas ∧
        ncore ≤ j.val ∧ j.val < i.val) := by
  cases frozen <;>
    simp only [uniq_var_indices, Bool.and_eq_true, Bool.or_eq_true,
      decide_eq_true_eq, Bool.not_eq_eq_eq_not, Bool.not_true,
      decide_eq_false_iff_not] at h <;>
    tauto

/-- Every masked position is strictly below the diagonal. -/
theorem uniq_var_indices_lt {internal_rotation : Bool} {nmo ncore ncas : ℕ}
    {frozen : Frozen} {i j : Fin nmo}
    (h : uniq_var_indices internal_rotation nmo ncore ncas frozen i j = true) :
    j.val < i.val := by
  rcases uniq_var_indices_base h with ⟨h1, h2, h3⟩ | ⟨h1, h2⟩ | ⟨_, h1, h2, h3, h4⟩ <;>
    omega

/-- The mask never marks both a position and its transpose. -/
theorem uniq_var_indices_asymm {internal_rotation : Bool} {nmo ncore ncas : ℕ}
    {frozen : Frozen} {i j : Fin nmo}
    (h : uniq_var_indices internal_rotation nmo ncore ncas frozen i j = true) :
    uniq_var_indices internal_rotation nmo ncore ncas frozen j i = false := by
  rw [Bool.eq_false_iff]
  intro h2
  have l1 := uniq_var_indices_lt h
  have l2 := uniq_var_indices_lt h2
  omega

/-- Membership in the row-major pair list is exactly the mask test. -/
theorem mem_uniq_var_pairs {internal_rotation : Bool} {nmo ncore ncas : ℕ}
    {frozen : Frozen} {a b : Fin nmo} :
    (a, b) ∈ uniq_var_pairs internal_rotation nmo ncore ncas frozen ↔
      uniq_var_indices internal_rotation nmo ncore ncas frozen a b = true := by
  simp [uniq_var_pairs, List.mem_filter]

/-- The row-major pair list has no duplicates. -/
theorem uniq_var_pairs_nodup (internal_rotation : Bool) (nmo ncore ncas : ℕ)
    (frozen : Frozen) :
    (uniq_var_pairs internal_rotation nmo ncore ncas frozen).Nodup :=
  List.Nodup.filter _
    (List.Nodup.product (List.nodup_finRange nmo) (List.nodup_finRange nmo))

/-- Scattering writes nothing at positions outside the pair list. -/
theorem assignAux_not_mem {nmo : ℕ} {ps : List (Fin nmo × Fin nmo)}
    {xs : List ℚ} {i j : Fin nmo} (h : (i, j) ∉ ps) :
    assignAux ps xs i j = 0 := by
  induction ps generalizing xs with
  | nil => cases xs <;> rfl
  | cons p ps ih =>
    cases xs with
    | nil => rfl
    | cons x xs =>
      simp only [assignAux]
      rw [if_neg]
      · exact ih (fun hm => h (List.mem_cons_of_mem _ hm))
      · rintro ⟨h1, h2⟩
        exact h (by
          have : (i, j) = p := Prod.ext h1 h2
          rw [this]
          exact List.mem_cons_self p ps)

/-- Scattering the values `ps.map f` reads back `f` at every listed
position (the list being duplicate-free). -/
theorem assignAux_map {nmo : ℕ} {ps : List (Fin nmo × Fin nmo)}
    (f : Fin nmo × Fin nmo → ℚ) {i j : Fin nmo}
    (hnd : ps.Nodup) (hm : (i, j) ∈ ps) :
    assignAux ps (ps.map f) i j = f (i, j) := by
  induction ps with
  | nil => cases hm
  | cons p ps ih =>
    rw [List.map_cons]
    simp only [assignAux]
    by_cases hij : (i, j) = p
    · rw [if_pos]
      · rw [hij]
      · exact ⟨congrArg Prod.fst hij, congrArg Prod.snd hij⟩
    · rw [if_neg]
      · exact ih (List.Nodup.of_cons hnd)
          (by
            rcases List.mem_cons.mp hm with h | h
            · exact absurd h hij
            · exact h)
      · rintro ⟨h1, h2⟩
        exact hij (Prod.ext h1 h2)

/-- Reading the scattered matrix back along the pair list recovers the
scattered vector. -/
theorem map_assignAux {nmo : ℕ} {ps : List (Fin nmo × Fin nmo)} {xs : List ℚ}
    (hnd : ps.Nodup) (hlen : xs.length = ps.length) :
    ps.map (fun p => assignAux ps xs p.1 p.2) = xs := by
  induction ps generalizing xs with
  | nil =>
    cases xs with
    | nil => rfl
    | cons x xs => simp at hlen
  | cons p ps ih =>
    cases xs with
    | nil => simp at hlen
    | cons x xs =>
      have hp : p ∉ ps := (List.nodup_cons.mp hnd).1
      rw [List.map_cons]
      have hhead : assignAux (p :: ps) (x :: xs) p.1 p.2 = x := by
        simp [assignAux]
      have htail : ∀ q ∈ ps,
          assignAux (p :: ps) (x :: xs) q.1 q.2 = assignAux ps xs q.1 q.2 := by
        intro q hq
        simp only [assignAux]
        rw [if_neg]
        rintro ⟨h1, h2⟩
        exact hp (by
          have : q = p := Prod.ext h1 h2
          rw [← this]
          exact hq)
      rw [hhead, List.map_congr_left htail,
        ih (List.Nodup.of_cons hnd) (by simpa using hlen)]

/-- Redundant positions — masked in neither direction — stay zero after
unpacking. -/
theorem unpack_uniq_var_redundant_zero {internal_rotation : Bool}
    {nmo ncore ncas : ℕ} {frozen : Frozen} (v : List ℚ) {a b : Fin nmo}
    (hab : uniq_var_indices internal_rotation nmo ncore ncas frozen a b = false)
    (hba : uniq_var_indices internal_rotation nmo ncore ncas frozen b a = false) :
    unpack_uniq_var internal_rotation nmo ncore ncas frozen v a b = 0 := by
  unfold unpack_uniq_var
  rw [assignAux_not_mem (fun hm => by
        rw [mem_uniq_var_pairs] at hm
        rw [hm] at hab
        cases hab),
    assignAux_not_mem (fun hm => by
        rw [mem_uniq_var_pairs] at hm
        rw [hm] at hba
        cases hba),
    sub_zero]

/-- The mask never marks a core-core position. -/
theorem uniq_var_indices_core_core {internal_rotation : Bool}
    {nmo ncore ncas : ℕ} {frozen : Frozen} {a b : Fin nmo}
    (ha : a.val < ncore) (hb : b.val < ncore) :
    uniq_var_indices internal_rotation nmo ncore ncas frozen a b = false := by
  rw [Bool.eq_false_iff]
  intro h
  rcases uniq_var_indices_base h with ⟨h1, h2, h3⟩ | ⟨h1, h2⟩ | ⟨_, h1, h2, h3, h4⟩ <;>
    omega

/-- Without internal rotation, the mask never marks an active-active
position. -/
theorem uniq_var_indices_active_active {internal_rotation : Bool}
    {nmo ncore ncas : ℕ} {frozen : Frozen} {a b : Fin nmo}
    (hir : internal_rotation = false)
    (ha1 : ncore ≤ a.val) (ha2 : a.val < ncore + ncas)
    (hb1 : ncore ≤ b.val) (hb2 : b.val < ncore + ncas) :
    uniq_var_indices internal_rotation nmo ncore ncas frozen a b = false := by
  rw [Bool.eq_false_iff]
  intro h
  rcases uniq_var_indices_base h with ⟨h1, h2, h3⟩ | ⟨h1, h2⟩ | ⟨hT, h1, h2, h3, h4⟩
  · omega
  · omega
  · rw [hir] at hT
    cases hT

/-- The mask never marks a virtual-virtual position. -/
theorem uniq_var_indices_virt_virt {internal_rotation : Bool}
    {nmo ncore ncas : ℕ} {frozen : Frozen} {a b : Fin nmo}
    (ha : ncore + ncas ≤ a.val) (hb : ncore + ncas ≤ b.val) :
    uniq_var_indices internal_rotation nmo ncore ncas frozen a b = false := by
  rw [Bool.eq_false_iff]
  intro h
  rcases uniq_var_indices_base h with ⟨h1, h2, h3⟩ | ⟨h1, h2⟩ | ⟨_, h1, h2, h3, h4⟩ <;>
    omega

/-- Packing after unpacking recovers the vector. -/
theorem pack_unpack_uniq_var (internal_rotation : Bool) (nmo ncore ncas : ℕ)
    (frozen : Frozen) (v : List ℚ)
    (hlen : v.length = (uniq_var_pairs internal_rotation nmo ncore ncas frozen).length) :
    pack_uniq_var internal_rotation nmo ncore ncas frozen
        (unpack_uniq_var internal_rotation nmo ncore ncas frozen v) = v := by
  unfold pack_uniq_var
  have hstep : ∀ p ∈ uniq_var_pairs internal_rotation nmo ncore ncas frozen,
      unpack_uniq_var internal_rotation nmo ncore ncas frozen v p.1 p.2 =
        assignAux (uniq_var_pairs internal_rotation nmo ncore ncas frozen) v p.1 p.2 := by
    intro p hp
    obtain ⟨a, b⟩ := p
    have hab : uniq_var_indices internal_rotation nmo ncore ncas frozen a b = true :=
      mem_uniq_var_pairs.mp hp
    have hba := uniq_var_indices_asymm hab
    have h2 : assignAux (uniq_var_pairs internal_rotation nmo ncore ncas frozen) v b a = 0 := by
      refine assignAux_not_mem (fun hm => ?_)
      rw [mem_uniq_var_pairs] at hm
      rw [hm] at hba
      exact Bool.noConfusion hba
    unfold unpack_uniq_var
    rw [h2, sub_zero]
  rw [List.map_congr_left hstep]
  exact map_assignAux (uniq_var_pairs_nodup _ _ _ _ _) hlen

/-- Unpacking after packing recovers every antisymmetric matrix supported on
the masked positions. -/
theorem unpack_pack_uniq_var (internal_rotation : Bool) (nmo ncore ncas : ℕ)
    (frozen : Frozen) (M : Fin nmo → Fin nmo → ℚ)
    (hanti : ∀ a b, M b a = -(M a b))
    (hsupp : ∀ a b, uniq_var_indices internal_rotation nmo ncore ncas frozen a b = false →
      uniq_var_indices internal_rotation nmo ncore ncas frozen b a = false → M a b = 0)
    (a b : Fin nmo) :
    unpack_uniq_var internal_rotation nmo ncore ncas frozen
        (pack_uniq_var internal_rotation nmo ncore ncas frozen M) a b = M a b := by
  unfold unpack_uniq_var pack_uniq_var
  by_cases hab : uniq_var_indices internal_rotation nmo ncore ncas frozen a b = true
  · have hba := uniq_var_indices_asymm hab
    rw [assignAux_map (fun p => M p.1 p.2) (uniq_var_pairs_nodup _ _ _ _ _)
        (mem_uniq_var_pairs.mpr hab),
      assignAux_not_mem (fun hm => by
        rw [mem_uniq_var_pairs] at hm
        rw [hm] at hba
        cases hba),
      sub_zero]
  · rw [Bool.not_eq_true] at hab
    by_cases hba : uniq_var_indices internal_rotation nmo ncore ncas frozen b a = true
    · rw [assignAux_not_mem (fun hm => by
            rw [mem_uniq_var_pairs] at hm
            rw [hm] at hab
            cases hab),
        assignAux_map (fun p => M p.1 p.2) (uniq_var_pairs_nodup _ _ _ _ _)
          (mem_uniq_var_pairs.mpr hba),
        zero_sub, hanti a b, neg_neg]
    · rw [Bool.not_eq_true] at hba
      rw [assignAux_not_mem (fun hm => by
            rw [mem_uniq_var_pairs] at hm
            rw [hm] at hab
            cases hab),
        assignAux_not_mem (fun hm => by
            rw [mem_uniq_var_pairs] at hm
            rw [hm] at hba
            cases hba),
        sub_zero, hsupp a b hab hba]

/-- Claim C2: for every orbital partition and frozen specification,
`pack_uniq_var` after `unpack_uniq_var` is the identity on vectors of the
right length, the unpacked matrix is antisymmetric with zero redundant
blocks (core-core, active-active unless internal rotation is enabled,
virtual-virtual), and `unpack_uniq_var` after `pack_uniq_var` is the
identity on antisymmetric matrices supported on the non-redundant
positions — so the pair is a bijection between the two sets. -/
theorem pack_unpack_uniq_var_bijection (internal_rotation : Bool)
    (nmo ncore ncas : ℕ) (frozen : Frozen) (v : List ℚ)
    (M : Fin nmo → Fin nmo → ℚ)
    (hlen : v.length = (uniq_var_pairs internal_rotation nmo ncore ncas frozen).length)
    (hanti : ∀ a b, M b a = -(M a b))
    (hsupp : ∀ a b,
      uniq_var_indices internal_rotation nmo ncore ncas frozen a b = false →
      uniq_var_indices internal_rotation nmo ncore ncas frozen b a = false →
      M a b = 0) :
    pack_uniq_var internal_rotation nmo ncore ncas frozen
        (unpack_uniq_var internal_rotation nmo ncore ncas frozen v) = v ∧
      (∀ a b, unpack_uniq_var internal_rotation nmo ncore ncas frozen v b a =
        -(unpack_uniq_var internal_rotation nmo ncore ncas frozen v a b)) ∧
      (∀ a b : Fin nmo, a.val < ncore → b.val < ncore →
        unpack_uniq_var internal_rotation nmo ncore ncas frozen v a b = 0) ∧
      (internal_rotation = false →
        ∀ a b : Fin nmo, ncore ≤ a.val → a.val < ncore + ncas →
          ncore ≤ b.val → b.val < ncore + ncas →
          unpack_uniq_var internal_rotation nmo ncore ncas frozen v a b = 0) ∧
      (∀ a b : Fin nmo, ncore + ncas ≤ a.val → ncore + ncas ≤ b.val →
        unpack_uniq_var internal_rotation nmo ncore ncas frozen v a b = 0) ∧
      (∀ a b, unpack_uniq_var internal_rotation nmo ncore ncas frozen
        (pack_uniq_var internal_rotation nmo ncore ncas frozen M) a b = M a b) := by
  refine ⟨pack_unpack_uniq_var _ _ _ _ _ _ hlen, ?_, ?_, ?_, ?_,
    unpack_pack_uniq_var _ _ _ _ _ M hanti hsupp⟩
  · intro a b
    unfold unpack_uniq_var
    ring
  · intro a b ha hb
    exact unpack_uniq_var_redundant_zero v
      (uniq_var_indices_core_core ha hb) (uniq_var_indices_core_core hb ha)
  · intro hir a b ha1 ha2 hb1 hb2
    exact unpack_uniq_var_redundant_zero v
      (uniq_var_indices_active_active hir ha1 ha2 hb1 hb2)
      (uniq_var_indices_active_active hir hb1 hb2 ha1 ha2)
  · intro a b ha hb
    exact unpack_uniq_var_redundant_zero v
      (uniq_var_indices_virt_virt ha hb) (uniq_var_indices_virt_virt hb ha)

/-- Claim C2 witness: the round trip at the concrete partition
`nmo = 4, ncore = 1, ncas = 2`, no frozen orbitals, internal rotation off,
whose five non-redundant positions carry the vector `[1, 2, 3, 4, 5]`. -/
theorem pack_unpack_uniq_var_bijection_witness :
    pack_uniq_var false 4 1 2 Frozen.none
        (unpack_uniq_var false 4 1 2 Frozen.none [1, 2, 3, 4, 5]) =
      [1, 2, 3, 4, 5] :=
  (pack_unpack_uniq_var_bijection false 4 1 2 Frozen.none [1, 2, 3, 4, 5]
    ![![0, -1, -2, -3], ![1, 0, 0, -4], ![2, 0, 0, -5], ![3, 4, 5, 0]]
    (by decide) (by decide) (by decide)).1

/-! ## `mcscf/mc1step.py`: step clipping in `rotate_orb_cc` (claim C9)

Lines 271-278, inside the accepted-step branch of the micro loop:

  dxmax = numpy.max(abs(dxi))
  if dxmax > max_stepsize:
      scale = max_stepsize / dxmax
      dxi *= scale
      hdxi *= scale
  else:
      scale = None

`numpy.max` of an empty array raises, so the packed step vector is embedded
as a function on `Fin (m+1)`. -/

/-- `numpy.max(abs(dxi))`: the largest absolute component of the step. -/
def dxmaxOf {m : ℕ} (dxi : Fin (m + 1) → ℚ) : ℚ :=
  Finset.univ.sup' Finset.univ_nonempty (fun i => |dxi i|)

/-- Shallow embedding of the step clipping of `rotate_orb_cc` (mc1step.py
lines 271-278): when the largest absolute component exceeds `max_stepsize`,
both the Davidson step `dxi` and its Hessian image `hdxi` are scaled by
`max_stepsize / dxmax`; otherwise both pass through unchanged. -/
def rotate_orb_cc_clip {m : ℕ} (max_stepsize : ℚ) (dxi hdxi : Fin (m + 1) → ℚ) :
    (Fin (m + 1) → ℚ) × (Fin (m + 1) → ℚ) :=
  if dxmaxOf dxi > max_stepsize then
    (fun i => dxi i * (max_stepsize / dxmaxOf dxi),
     fun i => hdxi i * (max_stepsize / dxmaxOf dxi))
  else (dxi, hdxi)

/-- Claim C9: a step whose largest component exceeds `max_stepsize` is
rescaled — together with its Hessian image — by the same positive scalar
`max_stepsize / dxmax`, after which its largest absolute component equals
`max_stepsize`; a step within the bound is accepted unmodified; and in
either case no accepted component exceeds `max_stepsize` in absolute
value. -/
theorem rotate_orb_cc_clip_spec {m : ℕ} (max_stepsize : ℚ)
    (dxi hdxi : Fin (m + 1) → ℚ) (hpos : 0 < max_stepsize) :
    (∀ i, |(rotate_orb_cc_clip max_stepsize dxi hdxi).1 i| ≤ max_stepsize) ∧
      (dxmaxOf dxi > max_stepsize →
        (rotate_orb_cc_clip max_stepsize dxi hdxi).1 =
            (fun i => dxi i * (max_stepsize / dxmaxOf dxi)) ∧
          (rotate_orb_cc_clip max_stepsize dxi hdxi).2 =
            (fun i => hdxi i * (max_stepsize / dxmaxOf dxi)) ∧
          0 < max_stepsize / dxmaxOf dxi ∧
          dxmaxOf (rotate_orb_cc_clip max_stepsize dxi hdxi).1 = max_stepsize) ∧
      (¬(dxmaxOf dxi > max_stepsize) →
        rotate_orb_cc_clip max_stepsize dxi hdxi = (dxi, hdxi)) := by
  have hle : ∀ i, |dxi i| ≤ dxmaxOf dxi :=
    fun i => Finset.le_sup' (fun i => |dxi i|) (Finset.mem_univ i)
  by_cases hgt : dxmaxOf dxi > max_stepsize
  · have hdx : 0 < dxmaxOf dxi := lt_trans hpos hgt
    have hc : 0 < max_stepsize / dxmaxOf dxi := div_pos hpos hdx
    have hkey : dxmaxOf dxi * (max_stepsize / dxmaxOf dxi) = max_stepsize := by
      field_simp
    have h1 : (rotate_orb_cc_clip max_stepsize dxi hdxi).1 =
        (fun i => dxi i * (max_stepsize / dxmaxOf dxi)) := by
      unfold rotate_orb_cc_clip
      rw [if_pos hgt]
    have h2 : (rotate_orb_cc_clip max_stepsize dxi hdxi).2 =
        (fun i => hdxi i * (max_stepsize / dxmaxOf dxi)) := by
      unfold rotate_orb_cc_clip
      rw [if_pos hgt]
    have hbound : ∀ i, |dxi i * (max_stepsize / dxmaxOf dxi)| ≤ max_stepsize := by
      intro i
      rw [abs_mul, abs_of_pos hc]
      calc |dxi i| * (max_stepsize / dxmaxOf dxi)
          ≤ dxmaxOf dxi * (max_stepsize / dxmaxOf dxi) :=
            mul_le_mul_of_nonneg_right (hle i) (le_of_lt hc)
        _ = max_stepsize := hkey
    have hattain : dxmaxOf (fun i => dxi i * (max_stepsize / dxmaxOf dxi)) =
        max_stepsize := by
      apply le_antisymm
      · exact Finset.sup'_le _ _ (fun i _ => hbound i)
      · obtain ⟨i0, -, hmax⟩ :=
          Finset.exists_mem_eq_sup' Finset.univ_nonempty (fun i => |dxi i|)
        have hval : |dxi i0 * (max_stepsize / dxmaxOf dxi)| = max_stepsize := by
          rw [abs_mul, abs_of_pos hc, ← hmax]
          exact hkey
        calc max_stepsize = |dxi i0 * (max_stepsize / dxmaxOf dxi)| := hval.symm
          _ ≤ dxmaxOf (fun i => dxi i * (max_stepsize / dxmaxOf dxi)) :=
            Finset.le_sup' (fun i => |dxi i * (max_stepsize / dxmaxOf dxi)|)
              (Finset.mem_univ i0)
    refine ⟨?_, fun _ => ⟨h1, h2, hc, by rw [h1]; exact hattain⟩, fun h => absurd hgt h⟩
    intro i
    rw [h1]
    exact hbound i
  · have h0 : rotate_orb_cc_clip max_stepsize dxi hdxi = (dxi, hdxi) := by
      unfold rotate_orb_cc_clip
      rw [if_neg hgt]
    refine ⟨?_, fun h => absurd h hgt, fun _ => h0⟩
    intro i
    rw [h0]
    exact le_trans (hle i) (not_lt.mp hgt)

/-- Claim C9 witness: the concrete one-component step `dxi = [2]` with
Hessian image `[6]` against `max_stepsize = 1` is clipped to absolute
value `1`. -/
theorem rotate_orb_cc_clip_spec_witness :
    dxmaxOf (rotate_orb_cc_clip 1 ![(2 : ℚ)] ![(6 : ℚ)]).1 = 1 :=
  ((rotate_orb_cc_clip_spec 1 ![(2 : ℚ)] ![(6 : ℚ)] (by norm_num)).2.1
    (by
      show dxmaxOf ![(2 : ℚ)] > 1
      have h2 : dxmaxOf ![(2 : ℚ)] = 2 := by
        unfold dxmaxOf
        apply le_antisymm
        · apply Finset.sup'_le
          intro i _
          fin_cases i
          norm_num [Matrix.cons_val_zero]
        · have h0 := Finset.le_sup' (fun i => |(![(2 : ℚ)]) i|)
            (Finset.mem_univ (0 : Fin 1))
          simpa using h0
      rw [h2]
      norm_num)).2.2.2

/-! ## `mcscf/mc1step.py`: CI trust-region guard in `update_casdm` (claim C8)

Lines 911-919:

  ci1, g = self.solve_approx_ci(h1, h2, fcivec, ecore, e_ci, envs)
  if g is not None:  # So state average CI, DMRG etc will not be applied
      ovlp = numpy.dot(fcivec.ravel(), ci1.ravel())
      norm_g = numpy.linalg.norm(g)
      if 1-abs(ovlp) > norm_g * self.ci_grad_trust_region:
          ...
          ci1 = fcivec.ravel() + g
          ci1 *= 1/numpy.linalg.norm(ci1)

CI vectors are embedded as `Fin n → ℝ`; `numpy.dot` and
`numpy.linalg.norm` as the Euclidean dot product and norm. -/

/-- `numpy.dot` on flattened CI vectors. -/
def npdot {n : ℕ} (x y : Fin n → ℝ) : ℝ := ∑ i, x i * y i

/-- `numpy.linalg.norm`: the Euclidean norm. -/
noncomputable def npnorm {n : ℕ} (x : Fin n → ℝ) : ℝ :=
  Real.sqrt (∑ i, x i ^ 2)

open Classical in
/-- Shallow embedding of the CI-vector selection of `update_casdm`
(mc1step.py lines 911-919): with no CI-space gradient the candidate `ci1`
passes through; with a gradient, the candidate is replaced by the
renormalized linear correction `(fcivec + g) * (1/‖fcivec + g‖)` exactly
when `1 - |ovlp| > ‖g‖ * ci_grad_trust_region`. -/
noncomputable def update_casdm_ci {n : ℕ} (ci_grad_trust_region : ℝ)
    (fcivec ci1 : Fin n → ℝ) (g : Option (Fin n → ℝ)) : Fin n → ℝ :=
  match g with
  | Option.none => ci1
  | Option.some gv =>
    if 1 - |npdot fcivec ci1| > npnorm gv * ci_grad_trust_region then
      fun k => (fcivec k + gv k) * (1 / npnorm (fun j => fcivec j + gv j))
    else ci1

/-- The Euclidean norm of a vector with a nonzero component is positive. -/
theorem npnorm_pos {n : ℕ} {x : Fin n → ℝ} (h : ∃ k, x k ≠ 0) :
    0 < npnorm x := by
  obtain ⟨k, hk⟩ := h
  refine Real.sqrt_pos.mpr ?_
  refine Finset.sum_pos' (fun i _ => sq_nonneg _)
    ⟨k, Finset.mem_univ k, pow_two_pos_of_ne_zero hk⟩

/-- Scaling a vector scales its Euclidean norm by the absolute value. -/
theorem npnorm_mul_const {n : ℕ} (x : Fin n → ℝ) (c : ℝ) :
    npnorm (fun k => x k * c) = npnorm x * |c| := by
  unfold npnorm
  have h1 : ∑ i, (x i * c) ^ 2 = (∑ i, x i ^ 2) * c ^ 2 := by
    rw [Finset.sum_mul]
    exact Finset.sum_congr rfl fun i _ => by ring
  rw [h1, Real.sqrt_mul (Finset.sum_nonneg fun i _ => sq_nonneg _),
    Real.sqrt_sq_eq_abs]

/-- Claim C8: when the CI-space gradient is available and the overlap
condition `1 - |⟨ci1, ci0⟩| > ‖g‖ * ci_grad_trust_region` holds, the
returned CI vector is the renormalized linear correction
`(ci0 + g)/‖ci0 + g‖`, which has unit norm; when the condition fails the
candidate passes through unchanged, as it does when no gradient is
available. -/
theorem update_casdm_ci_spec {n : ℕ} (ci_grad_trust_region : ℝ)
    (fcivec ci1 gv : Fin n → ℝ)
    (hcond : 1 - |npdot fcivec ci1| > npnorm gv * ci_grad_trust_region)
    (hne : ∃ k, fcivec k + gv k ≠ 0) :
    update_casdm_ci ci_grad_trust_region fcivec ci1 (some gv) =
        (fun k => (fcivec k + gv k) * (1 / npnorm (fun j => fcivec j + gv j))) ∧
      npnorm (update_casdm_ci ci_grad_trust_region fcivec ci1 (some gv)) = 1 ∧
      (∀ ci1' gv' : Fin n → ℝ,
        ¬(1 - |npdot fcivec ci1'| > npnorm gv' * ci_grad_trust_region) →
        update_casdm_ci ci_grad_trust_region fcivec ci1' (some gv') = ci1') ∧
      (∀ ci1' : Fin n → ℝ,
        update_casdm_ci ci_grad_trust_region fcivec ci1' Option.none = ci1') := by
  have hN : 0 < npnorm (fun j => fcivec j + gv j) := npnorm_pos hne
  have h1 : update_casdm_ci ci_grad_trust_region fcivec ci1 (some gv) =
      (fun k => (fcivec k + gv k) * (1 / npnorm (fun j => fcivec j + gv j))) := by
    simp only [update_casdm_ci]
    rw [if_pos hcond]
  have h2 : npnorm (update_casdm_ci ci_grad_trust_region fcivec ci1 (some gv)) = 1 := by
    rw [h1, npnorm_mul_const, abs_of_pos (by positivity), mul_one_div,
      div_self (ne_of_gt hN)]
  refine ⟨h1, h2, ?_, ?_⟩
  · intro ci1' gv' hc
    simp only [update_casdm_ci]
    rw [if_neg hc]
  · intro ci1'
    rfl

/-- Claim C8 witness: with `ci0 = [1, 0]`, candidate `ci1 = [0, 1]` and
gradient `g = [0, 0]`, the overlap condition `1 - 0 > 0 * 3` holds and the
returned vector has unit norm. -/
theorem update_casdm_ci_spec_witness :
    npnorm (update_casdm_ci 3 ![(1 : ℝ), 0] ![(0 : ℝ), 1] (some ![(0 : ℝ), 0])) = 1 :=
  (update_casdm_ci_spec 3 ![(1 : ℝ), 0] ![(0 : ℝ), 1] ![(0 : ℝ), 0]
    (by
      have hd : npdot ![(1 : ℝ), 0] ![(0 : ℝ), 1] = 0 := by
        simp [npdot, Fin.sum_univ_two]
      have hn : npnorm ![(0 : ℝ), 0] = 0 := by
        simp [npnorm, Fin.sum_univ_two]
      rw [hd, hn]
      norm_num)
    ⟨0, by norm_num⟩).2.1

/-! ## `mcscf/mc1step.py`: frozen orbitals never rotate (claim C10)

`CASSCF.update_rotate_matrix` (lines 802-804):

  def update_rotate_matrix(self, dx, u0=1):
      dr = self.unpack_uniq_var(dx)
      return numpy.dot(u0, expmat(dr))

with `expmat = scipy.linalg.expm` (line 1094), and `rotate_mo` (lines
1036-1038) multiplies `numpy.dot(mo, u)`.  The matrix exponential — an
external dense-linear-algebra primitive — is idealized as `NormedSpace.exp`
over `ℝ`; the rational unpacked matrix is cast into `ℝ` entrywise. -/

/-- `scipy.linalg.expm`, idealized as the matrix exponential over `ℝ`. -/
noncomputable def expmat {n : ℕ} (a : Matrix (Fin n) (Fin n) ℝ) :
    Matrix (Fin n) (Fin n) ℝ :=
  NormedSpace.exp ℝ a

/-- The unpacked antisymmetric rotation-parameter matrix, cast entrywise
into `ℝ`. -/
def unpack_uniq_var_mat (internal_rotation : Bool) (nmo ncore ncas : ℕ)
    (frozen : Frozen) (v : List ℚ) : Matrix (Fin nmo) (Fin nmo) ℝ :=
  Matrix.of fun i j =>
    ((unpack_uniq_var internal_rotation nmo ncore ncas frozen v i j : ℚ) : ℝ)

/-- Shallow embedding of `CASSCF.update_rotate_matrix` (mc1step.py lines
802-804): `numpy.dot(u0, expmat(unpack_uniq_var(dx)))`. -/
noncomputable def update_rotate_matrix (internal_rotation : Bool)
    (nmo ncore ncas : ℕ) (frozen : Frozen)
    (u0 : Matrix (Fin nmo) (Fin nmo) ℝ) (dx : List ℚ) :
    Matrix (Fin nmo) (Fin nmo) ℝ :=
  u0 * expmat (unpack_uniq_var_mat internal_rotation nmo ncore ncas frozen dx)

/-- Shallow embedding of `CASSCF.rotate_mo` (mc1step.py lines 1036-1049):
`numpy.dot(mo, u)` (the rest of the method is logging). -/
def rotate_mo {nao nmo : ℕ} (mo : Matrix (Fin nao) (Fin nmo) ℝ)
    (u : Matrix (Fin nmo) (Fin nmo) ℝ) : Matrix (Fin nao) (Fin nmo) ℝ :=
  mo * u

/-- An orbital index excluded from rotation by the `frozen` attribute: below
an integer count, or listed explicitly. -/
def isFrozenIdx : Frozen → ℕ → Prop
  | Frozen.none, _ => False
  | Frozen.count k, idx => idx < k
  | Frozen.idxList l, idx => idx ∈ l

/-- The mask clears the whole row and column of every frozen index. -/
theorem uniq_var_indices_frozen {internal_rotation : Bool}
    {nmo ncore ncas : ℕ} {frozen : Frozen} {i : Fin nmo}
    (h : isFrozenIdx frozen i.val) (j : Fin nmo) :
    uniq_var_indices internal_rotation nmo ncore ncas frozen i j = false ∧
      uniq_var_indices internal_rotation nmo ncore ncas frozen j i = false := by
  cases frozen with
  | none => exact h.elim
  | count k =>
    have hk : i.val < k := h
    constructor <;> simp [uniq_var_indices, hk]
  | idxList l =>
    have hk : i.val ∈ l := h
    constructor <;> simp [uniq_var_indices, hk]

/-- The unpacked matrix has zero row and zero column at every frozen
index. -/
theorem unpack_uniq_var_frozen_zero (internal_rotation : Bool)
    (nmo ncore ncas : ℕ) {frozen : Frozen} (v : List ℚ) {i : Fin nmo}
    (h : isFrozenIdx frozen i.val) (j : Fin nmo) :
    unpack_uniq_var internal_rotation nmo ncore ncas frozen v i j = 0 ∧
      unpack_uniq_var internal_rotation nmo ncore ncas frozen v j i = 0 := by
  obtain ⟨h1, h2⟩ := uniq_var_indices_frozen h j
  exact ⟨unpack_uniq_var_redundant_zero v h1 h2,
    unpack_uniq_var_redundant_zero v h2 h1⟩

open scoped Matrix in
/-- The matrix exponential fixes the basis vector of an index whose column
is zero. -/
theorem exp_mulVec_single {n : ℕ} (A : Matrix (Fin n) (Fin n) ℝ) (i : Fin n)
    (hcol : ∀ j, A j i = 0) :
    NormedSpace.exp ℝ A *ᵥ Pi.single i 1 = Pi.single i 1 := by
  letI : SeminormedRing (Matrix (Fin n) (Fin n) ℝ) := Matrix.linftyOpSemiNormedRing
  letI : NormedRing (Matrix (Fin n) (Fin n) ℝ) := Matrix.linftyOpNormedRing
  letI : NormedAlgebra ℝ (Matrix (Fin n) (Fin n) ℝ) := Matrix.linftyOpNormedAlgebra
  have hv : A *ᵥ Pi.single i 1 = 0 := by
    rw [Matrix.mulVec_single]
    funext j
    simp [hcol j]
  have hpow : ∀ k : ℕ, (A ^ (k + 1)) *ᵥ Pi.single i 1 = 0 := by
    intro k
    rw [pow_succ, ← Matrix.mulVec_mulVec, hv, Matrix.mulVec_zero]
  let L : Matrix (Fin n) (Fin n) ℝ →ₗ[ℝ] (Fin n → ℝ) :=
    { toFun := fun M => M *ᵥ Pi.single i 1
      map_add' := fun M N => Matrix.add_mulVec M N _
      map_smul' := fun c M => by
        funext j
        simp [Matrix.mulVec_single] }
  have hLc : Continuous L := L.continuous_of_finiteDimensional
  have hs := (NormedSpace.exp_series_hasSum_exp' (𝕂 := ℝ) A).mapL
    (⟨L, hLc⟩ : Matrix (Fin n) (Fin n) ℝ →L[ℝ] (Fin n → ℝ))
  have hs2 : HasSum (fun k : ℕ => ((k.factorial : ℝ))⁻¹ • (A ^ k *ᵥ Pi.single i 1))
      (NormedSpace.exp ℝ A *ᵥ Pi.single i 1) := by
    simpa [L, map_smul] using hs
  have hsingle : HasSum
      (fun k : ℕ => ((k.factorial : ℝ))⁻¹ • (A ^ k *ᵥ Pi.single i 1))
      (Pi.single i 1) := by
    have h0 : (fun k : ℕ => ((k.factorial : ℝ))⁻¹ • (A ^ k *ᵥ Pi.single i 1)) 0 =
        Pi.single i 1 := by
      funext j
      simp [Matrix.mulVec_single, Matrix.one_apply, Pi.single_apply]
    have := hasSum_single (f := fun k : ℕ =>
        ((k.factorial : ℝ))⁻¹ • (A ^ k *ᵥ Pi.single i 1)) 0
      (by
        intro k hk
        cases k with
        | zero => exact absurd rfl hk
        | succ k' =>
          show (((k' + 1).factorial : ℝ))⁻¹ • (A ^ (k' + 1) *ᵥ Pi.single i 1) = 0
          rw [hpow k', smul_zero])
    rw [h0] at this
    exact this
  exact hs2.unique hsingle

open scoped Matrix in
/-- Claim C10: frozen orbitals never rotate.  For every frozen
specification and packed rotation vector, the unpacked antisymmetric matrix
has zero row and zero column at each frozen index, the rotation matrix
`U = update_rotate_matrix(v)` fixes the frozen basis vector from both sides
(`U e_i = e_i` and `e_iᵀ U = e_iᵀ`), and `rotate_mo` leaves the frozen
orbital column unchanged. -/
theorem frozen_orbitals_never_rotate (internal_rotation : Bool)
    (nmo ncore ncas : ℕ) (frozen : Frozen) (v : List ℚ) (i : Fin nmo)
    (hfz : isFrozenIdx frozen i.val) :
    (∀ j, unpack_uniq_var internal_rotation nmo ncore ncas frozen v i j = 0 ∧
      unpack_uniq_var internal_rotation nmo ncore ncas frozen v j i = 0) ∧
      update_rotate_matrix internal_rotation nmo ncore ncas frozen 1 v *ᵥ
          Pi.single i 1 = Pi.single i 1 ∧
      Pi.single i 1 ᵥ*
          update_rotate_matrix internal_rotation nmo ncore ncas frozen 1 v =
        Pi.single i 1 ∧
      (∀ (nao : ℕ) (mo : Matrix (Fin nao) (Fin nmo) ℝ) (a : Fin nao),
        rotate_mo mo (update_rotate_matrix internal_rotation nmo ncore ncas frozen 1 v)
            a i = mo a i) := by
  have hzero := fun j =>
    unpack_uniq_var_frozen_zero internal_rotation nmo ncore ncas v hfz j
  set A := unpack_uniq_var_mat internal_rotation nmo ncore ncas frozen v with hA
  have hcol : ∀ j, A j i = 0 := by
    intro j
    show ((unpack_uniq_var internal_rotation nmo ncore ncas frozen v j i : ℚ) : ℝ) = 0
    rw [(hzero j).2]
    exact Rat.cast_zero
  have hrow : ∀ j, A i j = 0 := by
    intro j
    show ((unpack_uniq_var internal_rotation nmo ncore ncas frozen v i j : ℚ) : ℝ) = 0
    rw [(hzero j).1]
    exact Rat.cast_zero
  have hU : update_rotate_matrix internal_rotation nmo ncore ncas frozen 1 v =
      NormedSpace.exp ℝ A := by
    unfold update_rotate_matrix expmat
    rw [one_mul, ← hA]
  have hcolU : NormedSpace.exp ℝ A *ᵥ Pi.single i 1 = Pi.single i 1 :=
    exp_mulVec_single A i hcol
  have hrowU : Pi.single i 1 ᵥ* NormedSpace.exp ℝ A = Pi.single i 1 := by
    rw [← Matrix.mulVec_transpose, ← Matrix.exp_transpose]
    exact exp_mulVec_single Aᵀ i (fun j => hrow j)
  have hcols : ∀ k, NormedSpace.exp ℝ A k i = (Pi.single i 1 : Fin nmo → ℝ) k := by
    intro k
    have h1 := congrFun hcolU k
    rw [Matrix.mulVec_single] at h1
    simpa using h1
  have hmo : ∀ (nao : ℕ) (mo : Matrix (Fin nao) (Fin nmo) ℝ) (a : Fin nao),
      rotate_mo mo (NormedSpace.exp ℝ A) a i = mo a i := by
    intro nao mo a
    unfold rotate_mo
    rw [Matrix.mul_apply,
      Finset.sum_congr rfl (fun k _ => by rw [hcols k]),
      Fintype.sum_eq_single i (fun b hb => by simp [Pi.single_eq_of_ne hb])]
    simp
  refine ⟨hzero, ?_, ?_, ?_⟩
  · rw [hU]
    exact hcolU
  · rw [hU]
    exact hrowU
  · intro nao mo a
    rw [hU]
    exact hmo nao mo a

open scoped Matrix in
/-- Claim C10 witness: with `nmo = 3`, `ncore = ncas = 1` and the first
orbital frozen by count, the rotation matrix built from the packed vector
`[0]` fixes the frozen basis vector from the left. -/
theorem frozen_orbitals_never_rotate_witness :
    Pi.single (⟨0, by norm_num⟩ : Fin 3) (1 : ℝ) ᵥ*
        update_rotate_matrix false 3 1 1 (Frozen.count 1) 1 [0] =
      Pi.single (⟨0, by norm_num⟩ : Fin 3) (1 : ℝ) :=
  (frozen_orbitals_never_rotate false 3 1 1 (Frozen.count 1) [0]
    ⟨0, by norm_num⟩ Nat.zero_lt_one).2.2.1

/-- Claim C6 witness: a scalar CI energy passes straight through. -/
theorem casci_postprocess_multiroot_iff_witness :
    casci_postprocess 2 (CIEnergy.scalar 1) [] = Except.ok (2, 1, []) :=
  (casci_postprocess_multiroot_iff 2 (CIEnergy.scalar 1) []).2 1 rfl
